import Mathlib

/-!
# Verification of the limcode binary codec

A shallow embedding of the limcode serialization library (Rust sources in
`src/rust/src/{serializer.rs, deserializer.rs, lib.rs}`).  Bytes are
modelled as `Nat` (each in `0..256`), buffers as `List Nat`.  Machine
`usize`/`u64` arithmetic is modelled with explicit `% 2^64` at the places
where the Rust code can overflow in release builds.
-/

namespace Limcode

/-! ## Little-endian byte encodings

`leBytes w n` is the `w`-byte little-endian encoding of `n`, i.e. the model
of `to_le_bytes` on a `w`-byte machine integer (it truncates to `n % 2^(8w)`
exactly as the machine cast does).  `fromLE` is `from_le_bytes`. -/

def leBytes : Nat → Nat → List Nat
  | 0, _ => []
  | w + 1, n => n % 256 :: leBytes w (n / 256)

def fromLE : List Nat → Nat
  | [] => 0
  | b :: bs => b + 256 * fromLE bs

theorem leBytes_length (w n : Nat) : (leBytes w n).length = w := by
  induction w generalizing n with
  | zero => rfl
  | succ w ih => simp [leBytes, ih]

theorem fromLE_leBytes (w n : Nat) (h : n < 2 ^ (8 * w)) : fromLE (leBytes w n) = n := by
  induction w generalizing n with
  | zero => simp at h; simp [h, leBytes, fromLE]
  | succ w ih =>
    have hlt : n / 256 < 2 ^ (8 * w) := by
      rw [Nat.div_lt_iff_lt_mul (by norm_num : 0 < 256)]
      calc n < 2 ^ (8 * (w + 1)) := h
        _ = 2 ^ (8 * w) * 256 := by ring
    simp [leBytes, fromLE, ih _ hlt]
    omega

/-! ## UTF-8 (model of `str::from_utf8` validation and of Rust's UTF-8
string representation)

A Rust `String` is a sequence of Unicode scalar values stored as UTF-8
bytes; `serialize_str` writes the byte length then the bytes, and
`deserialize_str` validates the bytes with `std::str::from_utf8`.  We model
a string as its list of scalar values and give the standard (strict) UTF-8
encoding/decoding: overlong forms, surrogates and values above `0x10FFFF`
are rejected, exactly as `from_utf8` does. -/

def isValidScalar (c : Nat) : Bool := c < 0xD800 || (0xE000 ≤ c && c < 0x110000)

def utf8EncodeChar (c : Nat) : List Nat :=
  if c < 0x80 then [c]
  else if c < 0x800 then [0xC0 + c / 64, 0x80 + c % 64]
  else if c < 0x10000 then [0xE0 + c / 4096, 0x80 + c / 64 % 64, 0x80 + c % 64]
  else [0xF0 + c / 262144, 0x80 + c / 4096 % 64, 0x80 + c / 64 % 64, 0x80 + c % 64]

def utf8Encode (cs : List Nat) : List Nat := (cs.map utf8EncodeChar).flatten

/-- One step of strict UTF-8 decoding: decode the scalar value starting at the
head of `l`, returning it with the remaining bytes.  Overlong forms,
surrogates and values above `0x10FFFF` are rejected, exactly as
`std::str::from_utf8` does. -/
def utf8DecodeStep (l : List Nat) : Option (Nat × List Nat) :=
  match l with
  | [] => none
  | b0 :: rest =>
    if b0 < 0x80 then some (b0, rest)
    else if b0 < 0xE0 then
      if rest.length < 1 then none else
      if 0xC2 ≤ b0 ∧ 0x80 ≤ rest.getD 0 0 ∧ rest.getD 0 0 < 0xC0 then
        some ((b0 - 0xC0) * 64 + (rest.getD 0 0 - 0x80), rest.drop 1)
      else none
    else if b0 < 0xF0 then
      if rest.length < 2 then none else
      if (0x80 ≤ rest.getD 0 0 ∧ rest.getD 0 0 < 0xC0) ∧
          (0x80 ≤ rest.getD 1 0 ∧ rest.getD 1 0 < 0xC0) ∧
          0x800 ≤ (b0 - 0xE0) * 4096 + (rest.getD 0 0 - 0x80) * 64 + (rest.getD 1 0 - 0x80) ∧
          ¬(0xD800 ≤ (b0 - 0xE0) * 4096 + (rest.getD 0 0 - 0x80) * 64 + (rest.getD 1 0 - 0x80) ∧
            (b0 - 0xE0) * 4096 + (rest.getD 0 0 - 0x80) * 64 + (rest.getD 1 0 - 0x80) < 0xE000) then
        some ((b0 - 0xE0) * 4096 + (rest.getD 0 0 - 0x80) * 64 + (rest.getD 1 0 - 0x80),
          rest.drop 2)
      else none
    else
      if rest.length < 3 then none else
      if b0 < 0xF5 ∧ (0x80 ≤ rest.getD 0 0 ∧ rest.getD 0 0 < 0xC0) ∧
          (0x80 ≤ rest.getD 1 0 ∧ rest.getD 1 0 < 0xC0) ∧
          (0x80 ≤ rest.getD 2 0 ∧ rest.getD 2 0 < 0xC0) ∧
          0x10000 ≤ (b0 - 0xF0) * 262144 + (rest.getD 0 0 - 0x80) * 4096 +
            (rest.getD 1 0 - 0x80) * 64 + (rest.getD 2 0 - 0x80) ∧
          (b0 - 0xF0) * 262144 + (rest.getD 0 0 - 0x80) * 4096 +
            (rest.getD 1 0 - 0x80) * 64 + (rest.getD 2 0 - 0x80) < 0x110000 then
        some ((b0 - 0xF0) * 262144 + (rest.getD 0 0 - 0x80) * 4096 +
          (rest.getD 1 0 - 0x80) * 64 + (rest.getD 2 0 - 0x80), rest.drop 3)
      else none

theorem utf8DecodeStep_shrinks (l : List Nat) (c : Nat) (rest : List Nat)
    (h : utf8DecodeStep l = some (c, rest)) : rest.length < l.length := by
  match l with
  | [] => simp [utf8DecodeStep] at h
  | b0 :: r =>
    simp only [utf8DecodeStep] at h
    split_ifs at h <;> simp only [Option.some.injEq, Prod.mk.injEq] at h <;>
      (obtain ⟨h1, h2⟩ := h) <;> subst h2 <;>
      simp only [List.length_drop, List.length_cons] <;> omega

/-- Strict UTF-8 decoding of a whole byte string into scalar values;
`none` models a `Utf8Error` from `std::str::from_utf8`. -/
def utf8Decode (l : List Nat) : Option (List Nat) :=
  if l.isEmpty then some []
  else
    match hs : utf8DecodeStep l with
    | none => none
    | some (c, rest) => (utf8Decode rest).map (c :: ·)
termination_by l.length
decreasing_by exact utf8DecodeStep_shrinks l c rest hs

theorem utf8Decode_nil : utf8Decode [] = some [] := by simp [utf8Decode]

theorem utf8Decode_step_some (l : List Nat) (c : Nat) (rest : List Nat)
    (h : utf8DecodeStep l = some (c, rest)) :
    utf8Decode l = (utf8Decode rest).map (c :: ·) := by
  match l with
  | [] => simp [utf8DecodeStep] at h
  | b :: r =>
    rw [utf8Decode]
    simp only [List.isEmpty_cons, Bool.false_eq_true, if_false]
    split
    · rename_i hnone
      rw [h] at hnone
      exact absurd hnone (by simp)
    · rename_i c2 rest2 hsome
      rw [h] at hsome
      obtain ⟨rfl, rfl⟩ : c2 = c ∧ rest2 = rest := by
        injection hsome with h2
        exact ⟨(Prod.mk.injEq _ _ _ _ ▸ h2).1.symm, (Prod.mk.injEq _ _ _ _ ▸ h2).2.symm⟩
      rfl

theorem utf8DecodeStep_encodeChar (c : Nat) (h : isValidScalar c = true) (bs : List Nat) :
    utf8DecodeStep (utf8EncodeChar c ++ bs) = some (c, bs) := by
  simp only [isValidScalar, Bool.or_eq_true, Bool.and_eq_true, decide_eq_true_eq] at h
  by_cases h1 : c < 0x80
  · simp only [utf8EncodeChar, if_pos h1, List.cons_append, List.nil_append, utf8DecodeStep]
  · by_cases h2 : c < 0x800
    · have hdm := Nat.div_add_mod c 64
      have hm : c % 64 < 64 := Nat.mod_lt _ (by norm_num)
      have hd1 : 2 ≤ c / 64 := by omega
      have hd2 : c / 64 < 32 := by omega
      simp only [utf8EncodeChar, if_neg h1, if_pos h2, List.cons_append, List.nil_append,
        utf8DecodeStep, List.getD_cons_zero, List.length_cons, List.drop_succ_cons,
        List.drop_zero]
      rw [if_neg (by omega), if_pos (by omega), if_neg (by omega), if_pos (by omega)]
      simp only [Option.some.injEq, Prod.mk.injEq]
      first
      | exact ⟨by omega, trivial⟩
      | exact ⟨by omega, rfl⟩
    · by_cases h3 : c < 0x10000
      · have hm1 : c / 64 % 64 < 64 := Nat.mod_lt _ (by norm_num)
        have hm2 : c % 64 < 64 := Nat.mod_lt _ (by norm_num)
        have hd1 : c / 4096 < 16 := by omega
        have hd0 : 0x800 ≤ c := by omega
        have hdm : c / 4096 * 4096 + c / 64 % 64 * 64 + c % 64 = c := by
          have e1 := Nat.div_add_mod c 64
          have e2 := Nat.div_add_mod (c / 64) 64
          have e3 : c / 64 / 64 = c / 4096 := by rw [Nat.div_div_eq_div_mul]
          omega
        simp only [utf8EncodeChar, if_neg h1, if_neg h2, if_pos h3, List.cons_append,
          List.nil_append, utf8DecodeStep, List.getD_cons_zero, List.getD_cons_succ,
          List.length_cons, List.drop_succ_cons, List.drop_zero]
        rw [if_neg (by omega), if_neg (by omega), if_pos (by omega), if_neg (by omega),
          if_pos (by constructor; · omega
                     constructor; · omega
                     constructor; · omega
                     omega)]
        simp only [Option.some.injEq, Prod.mk.injEq]
        first
      | exact ⟨by omega, trivial⟩
      | exact ⟨by omega, rfl⟩
      · have hub : c < 0x110000 := by omega
        have hm1 : c / 4096 % 64 < 64 := Nat.mod_lt _ (by norm_num)
        have hm2 : c / 64 % 64 < 64 := Nat.mod_lt _ (by norm_num)
        have hm3 : c % 64 < 64 := Nat.mod_lt _ (by norm_num)
        have hd2 : c / 262144 < 5 := by omega
        have hdm : c / 262144 * 262144 + c / 4096 % 64 * 4096 + c / 64 % 64 * 64 + c % 64 = c := by
          have e1 := Nat.div_add_mod c 64
          have e2 := Nat.div_add_mod (c / 64) 64
          have e3 := Nat.div_add_mod (c / 4096) 64
          have d1 : c / 64 / 64 = c / 4096 := by rw [Nat.div_div_eq_div_mul]
          have d2 : c / 4096 / 64 = c / 262144 := by rw [Nat.div_div_eq_div_mul]
          omega
        simp only [utf8EncodeChar, if_neg h1, if_neg h2, if_neg h3, List.cons_append,
          List.nil_append, utf8DecodeStep, List.getD_cons_zero, List.getD_cons_succ,
          List.length_cons, List.drop_succ_cons, List.drop_zero]
        rw [if_neg (by omega), if_neg (by omega), if_neg (by omega), if_neg (by omega),
          if_pos (by constructor; · omega
                     constructor; · omega
                     constructor; · omega
                     constructor; · omega
                     omega)]
        simp only [Option.some.injEq, Prod.mk.injEq]
        first
      | exact ⟨by omega, trivial⟩
      | exact ⟨by omega, rfl⟩

theorem utf8Decode_encode (cs : List Nat) (h : cs.all isValidScalar = true) :
    utf8Decode (utf8Encode cs) = some cs := by
  induction cs with
  | nil => exact utf8Decode_nil
  | cons c cs ih =>
    simp only [List.all_cons, Bool.and_eq_true] at h
    have he : utf8Encode (c :: cs) = utf8EncodeChar c ++ utf8Encode cs := by
      simp [utf8Encode]
    rw [he, utf8Decode_step_some _ c (utf8Encode cs)
      (utf8DecodeStep_encodeChar c h.1 _), ih h.2]
    rfl

/-! ## Two's-complement views of signed integers

`write_i8/i16/i32/i64` emit `v.to_le_bytes()`, i.e. the two's-complement bit
pattern; the reads cast the unsigned value back (`read_u16()? as i16`). -/

def intToBits (w : Nat) (v : Int) : Nat := (v % (2 ^ w : Int)).toNat

def bitsToInt (w : Nat) (u : Nat) : Int :=
  if u < 2 ^ (w - 1) then (u : Int) else (u : Int) - 2 ^ w

theorem intToBits_lt (w : Nat) (v : Int) : intToBits w v < 2 ^ w := by
  have h1 : 0 ≤ v % (2 ^ w : Int) := Int.emod_nonneg v (by positivity)
  have h2 : v % (2 ^ w : Int) < 2 ^ w := Int.emod_lt_of_pos v (by positivity)
  have : ((2 : Int) ^ w) = ((2 ^ w : Nat) : Int) := by push_cast; ring
  rw [intToBits]
  omega

theorem bitsToInt_intToBits (w : Nat) (hw : 0 < w) (v : Int)
    (h1 : -(2 ^ (w - 1)) ≤ v) (h2 : v < 2 ^ (w - 1)) :
    bitsToInt w (intToBits w v) = v := by
  obtain ⟨w', rfl⟩ : ∃ w', w = w' + 1 := ⟨w - 1, by omega⟩
  have hsplit : (2 : Int) ^ (w' + 1) = 2 * 2 ^ w' := by ring
  simp only [Nat.add_sub_cancel] at h1 h2 ⊢
  have hmod : v % (2 ^ (w' + 1) : Int) = if 0 ≤ v then v else v + 2 ^ (w' + 1) := by
    split
    · exact Int.emod_eq_of_lt (by assumption) (by rw [hsplit]; omega)
    · rename_i hneg
      have hself : (v + 2 ^ (w' + 1)) % (2 ^ (w' + 1) : Int) = v % (2 ^ (w' + 1) : Int) := by
        have h := Int.add_mul_emod_self_left (a := v) (b := (2 : Int) ^ (w' + 1)) (c := 1)
        simpa using h
      rw [← hself]
      exact Int.emod_eq_of_lt (by rw [hsplit]; omega) (by rw [hsplit]; omega)
  have hcastp : ((2 : Int) ^ (w' + 1)) = ((2 ^ (w' + 1) : Nat) : Int) := by push_cast; ring
  have hcastp2 : ((2 : Int) ^ w') = ((2 ^ w' : Nat) : Int) := by push_cast; ring
  have hpow : (2 : Nat) ^ (w' + 1) = 2 * 2 ^ w' := by ring
  rw [bitsToInt, intToBits, hmod]
  simp only [Nat.add_sub_cancel]
  split
  · rename_i hpos
    have hvlt : v.toNat < 2 ^ w' := by omega
    rw [if_pos (by omega)]
    omega
  · rename_i hneg
    have hge : (2 ^ w' : Int) ≤ v + 2 ^ (w' + 1) := by rw [hsplit]; omega
    have hlt : v + 2 ^ (w' + 1) < 2 ^ (w' + 1) := by omega
    rw [if_neg (by omega)]
    omega

/-! ## The data model

Values of the shapes the serde `Serializer`/`Deserializer` in
`serializer.rs`/`deserializer.rs` support.  Strings carry their Unicode
scalar values (`vstr`), floats carry their IEEE-754 bit pattern (`vf32` /
`vf64`, exactly what `to_bits`/`from_bits` transport), signed integers carry
a mathematical integer.  Structs, tuples, tuple structs and newtype
(struct/variant) contents are all field concatenations (`vstruct`);
`venum` is a variant index with its payload fields.  The lists of a value
are part of the same mutual inductive family so that every function on
values is plain structural recursion. -/

mutual
inductive Value where
  | vbool (b : Bool)
  | vu8 (n : Nat)
  | vu16 (n : Nat)
  | vu32 (n : Nat)
  | vu64 (n : Nat)
  | vi8 (v : Int)
  | vi16 (v : Int)
  | vi32 (v : Int)
  | vi64 (v : Int)
  | vf32 (bits : Nat)
  | vf64 (bits : Nat)
  | vstr (cs : List Nat)
  | vbytes (bs : List Nat)
  | vnone
  | vsome (v : Value)
  | vunit
  | vstruct (fields : ValueList)
  | vseq (elems : ValueList)
  | venum (idx : Nat) (payload : ValueList)
  | vmap (entries : PairList)
inductive ValueList where
  | nil
  | cons (v : Value) (rest : ValueList)
inductive PairList where
  | nil
  | cons (k : Value) (v : Value) (rest : PairList)
end

/-! Type descriptors: the static shape serde's `Deserialize` impl drives the
decoder with (a non-self-describing format decodes by type). -/
mutual
inductive Ty where
  | tbool
  | tu8
  | tu16
  | tu32
  | tu64
  | ti8
  | ti16
  | ti32
  | ti64
  | tf32
  | tf64
  | tstr
  | tbytes
  | tunit
  | topt (t : Ty)
  | tstruct (fields : TyList)
  | tseq (elem : Ty)
  | tenum (variants : VariantList)
  | tmap (key : Ty) (val : Ty)
inductive TyList where
  | nil
  | cons (t : Ty) (rest : TyList)
inductive VariantList where
  | nil
  | cons (fields : TyList) (rest : VariantList)
end

def ValueList.length : ValueList → Nat
  | .nil => 0
  | .cons _ rest => rest.length + 1

def PairList.length : PairList → Nat
  | .nil => 0
  | .cons _ _ rest => rest.length + 1

def VariantList.find : VariantList → Nat → Option TyList
  | .nil, _ => none
  | .cons fs _, 0 => some fs
  | .cons _ rest, n + 1 => rest.find n

/-! Well-typedness of a value at a type, including the machine-integer range
bounds the Rust types carry implicitly (`u8` values are below `2^8`, vector
and string lengths fit in `usize`, variant indices are `u32`, bytes of a
byte buffer fit in `u8`, string scalars are valid Unicode). -/
mutual
inductive HasTy : Value → Ty → Prop where
  | bool (b : Bool) : HasTy (.vbool b) .tbool
  | u8 (n : Nat) : n < 2 ^ 8 → HasTy (.vu8 n) .tu8
  | u16 (n : Nat) : n < 2 ^ 16 → HasTy (.vu16 n) .tu16
  | u32 (n : Nat) : n < 2 ^ 32 → HasTy (.vu32 n) .tu32
  | u64 (n : Nat) : n < 2 ^ 64 → HasTy (.vu64 n) .tu64
  | i8 (v : Int) : -(2 ^ 7) ≤ v → v < 2 ^ 7 → HasTy (.vi8 v) .ti8
  | i16 (v : Int) : -(2 ^ 15) ≤ v → v < 2 ^ 15 → HasTy (.vi16 v) .ti16
  | i32 (v : Int) : -(2 ^ 31) ≤ v → v < 2 ^ 31 → HasTy (.vi32 v) .ti32
  | i64 (v : Int) : -(2 ^ 63) ≤ v → v < 2 ^ 63 → HasTy (.vi64 v) .ti64
  | f32 (bits : Nat) : bits < 2 ^ 32 → HasTy (.vf32 bits) .tf32
  | f64 (bits : Nat) : bits < 2 ^ 64 → HasTy (.vf64 bits) .tf64
  | str (cs : List Nat) : cs.all isValidScalar = true →
      (utf8Encode cs).length < 2 ^ 64 → HasTy (.vstr cs) .tstr
  | bytes (bs : List Nat) : (∀ b ∈ bs, b < 2 ^ 8) → bs.length < 2 ^ 64 →
      HasTy (.vbytes bs) .tbytes
  | none (t : Ty) : HasTy .vnone (.topt t)
  | some (v : Value) (t : Ty) : HasTy v t → HasTy (.vsome v) (.topt t)
  | unit : HasTy .vunit .tunit
  | struct (fs : ValueList) (ts : TyList) : HasTyFields fs ts →
      HasTy (.vstruct fs) (.tstruct ts)
  | seq (es : ValueList) (t : Ty) : HasTyElems es t → es.length < 2 ^ 64 →
      HasTy (.vseq es) (.tseq t)
  | enum (i : Nat) (p : ValueList) (vs : VariantList) (fs : TyList) :
      i < 2 ^ 32 → vs.find i = some fs → HasTyFields p fs →
      HasTy (.venum i p) (.tenum vs)
  | map (m : PairList) (tk tv : Ty) : HasTyPairs m tk tv → m.length < 2 ^ 64 →
      HasTy (.vmap m) (.tmap tk tv)
inductive HasTyFields : ValueList → TyList → Prop where
  | nil : HasTyFields .nil .nil
  | cons (v : Value) (t : Ty) (vs : ValueList) (ts : TyList) :
      HasTy v t → HasTyFields vs ts → HasTyFields (.cons v vs) (.cons t ts)
inductive HasTyElems : ValueList → Ty → Prop where
  | nil (t : Ty) : HasTyElems .nil t
  | cons (v : Value) (vs : ValueList) (t : Ty) :
      HasTy v t → HasTyElems vs t → HasTyElems (.cons v vs) t
inductive HasTyPairs : PairList → Ty → Ty → Prop where
  | nil (tk tv : Ty) : HasTyPairs .nil tk tv
  | cons (k v : Value) (m : PairList) (tk tv : Ty) :
      HasTy k tk → HasTy v tv → HasTyPairs m tk tv →
      HasTyPairs (.cons k v m) tk tv
end

/-! ## The serde Serializer (`serializer.rs`)

The `Serializer` owns a `FastWriter` buffer; every `write_*` appends
(`Vec::push` / `extend_from_slice`), so the writer state is the buffer.
`serialize_seq`/`serialize_map` are the only fallible methods: a `None`
length is an error, otherwise the `u64` length prefix is written.  Note
`serialize_unit` writes nothing, `serialize_some` writes the tag `1` and
then the payload, and all struct-like shapes are plain concatenation. -/

inductive SerError where
  | Message (msg : String)

def serialize_seq (len : Option Nat) (buf : List Nat) : Except SerError (List Nat) :=
  match len with
  | none => .error (.Message "sequence length required")
  | some n => .ok (buf ++ leBytes 8 n)

def serialize_map (len : Option Nat) (buf : List Nat) : Except SerError (List Nat) :=
  match len with
  | none => .error (.Message "map length required")
  | some n => .ok (buf ++ leBytes 8 n)

mutual
def serM : Value → List Nat → Except SerError (List Nat)
  | .vbool b, buf => .ok (buf ++ [if b then 1 else 0])
  | .vu8 n, buf => .ok (buf ++ leBytes 1 n)
  | .vu16 n, buf => .ok (buf ++ leBytes 2 n)
  | .vu32 n, buf => .ok (buf ++ leBytes 4 n)
  | .vu64 n, buf => .ok (buf ++ leBytes 8 n)
  | .vi8 v, buf => .ok (buf ++ leBytes 1 (intToBits 8 v))
  | .vi16 v, buf => .ok (buf ++ leBytes 2 (intToBits 16 v))
  | .vi32 v, buf => .ok (buf ++ leBytes 4 (intToBits 32 v))
  | .vi64 v, buf => .ok (buf ++ leBytes 8 (intToBits 64 v))
  | .vf32 b, buf => .ok (buf ++ leBytes 4 b)
  | .vf64 b, buf => .ok (buf ++ leBytes 8 b)
  | .vstr cs, buf => .ok (buf ++ leBytes 8 (utf8Encode cs).length ++ utf8Encode cs)
  | .vbytes bs, buf => .ok (buf ++ leBytes 8 bs.length ++ bs)
  | .vnone, buf => .ok (buf ++ [0])
  | .vsome v, buf => serM v (buf ++ [1])
  | .vunit, buf => .ok buf
  | .vstruct fs, buf => serMFields fs buf
  | .vseq es, buf => do
    let buf2 ← serialize_seq (some es.length) buf
    serMFields es buf2
  | .venum i p, buf => serMFields p (buf ++ leBytes 4 i)
  | .vmap m, buf => do
    let buf2 ← serialize_map (some m.length) buf
    serMPairs m buf2
def serMFields : ValueList → List Nat → Except SerError (List Nat)
  | .nil, buf => .ok buf
  | .cons v vs, buf => do
    let buf2 ← serM v buf
    serMFields vs buf2
def serMPairs : PairList → List Nat → Except SerError (List Nat)
  | .nil, buf => .ok buf
  | .cons k v rest, buf => do
    let buf2 ← serM k buf
    let buf3 ← serM v buf2
    serMPairs rest buf3
end

/-- `to_vec` (serializer.rs): serialize into a fresh buffer. -/
def to_vec (v : Value) : Except SerError (List Nat) := serM v []

/-! The bytes `serM` produces, as a pure function (proved below:
`serM v buf = .ok (buf ++ ser v)`). -/
mutual
def ser : Value → List Nat
  | .vbool b => [if b then 1 else 0]
  | .vu8 n => leBytes 1 n
  | .vu16 n => leBytes 2 n
  | .vu32 n => leBytes 4 n
  | .vu64 n => leBytes 8 n
  | .vi8 v => leBytes 1 (intToBits 8 v)
  | .vi16 v => leBytes 2 (intToBits 16 v)
  | .vi32 v => leBytes 4 (intToBits 32 v)
  | .vi64 v => leBytes 8 (intToBits 64 v)
  | .vf32 b => leBytes 4 b
  | .vf64 b => leBytes 8 b
  | .vstr cs => leBytes 8 (utf8Encode cs).length ++ utf8Encode cs
  | .vbytes bs => leBytes 8 bs.length ++ bs
  | .vnone => [0]
  | .vsome v => 1 :: ser v
  | .vunit => []
  | .vstruct fs => serFields fs
  | .vseq es => leBytes 8 es.length ++ serFields es
  | .venum i p => leBytes 4 i ++ serFields p
  | .vmap m => leBytes 8 m.length ++ serPairs m
def serFields : ValueList → List Nat
  | .nil => []
  | .cons v vs => ser v ++ serFields vs
def serPairs : PairList → List Nat
  | .nil => []
  | .cons k v rest => ser k ++ ser v ++ serPairs rest
end

mutual
theorem serM_eq : ∀ (v : Value) (buf : List Nat), serM v buf = .ok (buf ++ ser v)
  | .vbool b, buf => by simp [serM, ser]
  | .vu8 n, buf => by simp [serM, ser]
  | .vu16 n, buf => by simp [serM, ser]
  | .vu32 n, buf => by simp [serM, ser]
  | .vu64 n, buf => by simp [serM, ser]
  | .vi8 v, buf => by simp [serM, ser]
  | .vi16 v, buf => by simp [serM, ser]
  | .vi32 v, buf => by simp [serM, ser]
  | .vi64 v, buf => by simp [serM, ser]
  | .vf32 b, buf => by simp [serM, ser]
  | .vf64 b, buf => by simp [serM, ser]
  | .vstr cs, buf => by simp [serM, ser]
  | .vbytes bs, buf => by simp [serM, ser]
  | .vnone, buf => by simp [serM, ser]
  | .vsome v, buf => by
    rw [serM, serM_eq v (buf ++ [1]), ser]
    simp
  | .vunit, buf => by simp [serM, ser]
  | .vstruct fs, buf => by
    rw [serM, serMFields_eq fs buf, ser]
  | .vseq es, buf => by
    rw [serM, ser]
    show serMFields es (buf ++ leBytes 8 es.length) = _
    rw [serMFields_eq es (buf ++ leBytes 8 es.length)]
    simp
  | .venum i p, buf => by
    rw [serM, serMFields_eq p (buf ++ leBytes 4 i), ser]
    simp
  | .vmap m, buf => by
    rw [serM, ser]
    show serMPairs m (buf ++ leBytes 8 m.length) = _
    rw [serMPairs_eq m (buf ++ leBytes 8 m.length)]
    simp
theorem serMFields_eq : ∀ (vs : ValueList) (buf : List Nat),
    serMFields vs buf = .ok (buf ++ serFields vs)
  | .nil, buf => by simp [serMFields, serFields]
  | .cons v vs, buf => by
    rw [serMFields, serM_eq v buf]
    show serMFields vs (buf ++ ser v) = _
    rw [serMFields_eq vs (buf ++ ser v), serFields]
    simp
theorem serMPairs_eq : ∀ (m : PairList) (buf : List Nat),
    serMPairs m buf = .ok (buf ++ serPairs m)
  | .nil, buf => by simp [serMPairs, serPairs]
  | .cons k v rest, buf => by
    rw [serMPairs, serM_eq k buf]
    show (do
      let buf3 ← serM v (buf ++ ser k)
      serMPairs rest buf3) = _
    rw [serM_eq v (buf ++ ser k)]
    show serMPairs rest ((buf ++ ser k) ++ ser v) = _
    rw [serMPairs_eq rest ((buf ++ ser k) ++ ser v), serPairs]
    simp
end

theorem to_vec_eq (v : Value) : to_vec v = .ok (ser v) := by
  rw [to_vec, serM_eq v []]
  simp

/-! ## The serde Deserializer (`deserializer.rs`)

The Rust `Deserializer` holds `input: &[u8]` and `pos: usize` and only ever
reads forward; here a reader state is represented by the remaining input
suffix `input[pos..]` (every state reachable from `Deserializer::new` has
`pos <= input.len()`, so the suffix determines the behaviour of every
read).  The position-based struct itself is modelled separately below for
the position-monotonicity claim. -/

inductive DeError where
  | Message (msg : String)
  | Eof
  | InvalidBool (b : Nat)
  | InvalidChar
  | Utf8Error

/-- `Deserializer::read_u8`: one byte or `Eof`. -/
def read_u8 : List Nat → Except DeError (Nat × List Nat)
  | [] => .error .Eof
  | b :: rest => .ok (b, rest)

/-- `Deserializer::read_bytes(len)`: `Eof` unless `len` bytes remain. -/
def read_bytes (len : Nat) (s : List Nat) : Except DeError (List Nat × List Nat) :=
  if s.length < len then .error .Eof else .ok (s.take len, s.drop len)

def read_u16 (s : List Nat) : Except DeError (Nat × List Nat) :=
  (read_bytes 2 s).map (fun p => (fromLE p.1, p.2))

def read_u32 (s : List Nat) : Except DeError (Nat × List Nat) :=
  (read_bytes 4 s).map (fun p => (fromLE p.1, p.2))

def read_u64 (s : List Nat) : Except DeError (Nat × List Nat) :=
  (read_bytes 8 s).map (fun p => (fromLE p.1, p.2))

theorem except_bind_ok {α β ε : Type} (a : α) (f : α → Except ε β) :
    (Except.ok (ε := ε) a >>= f) = f a := rfl

theorem read_bytes_exact (pre rest : List Nat) :
    read_bytes pre.length (pre ++ rest) = .ok (pre, rest) := by
  simp [read_bytes, List.take_left, List.drop_left]

theorem read_u64_leBytes (n : Nat) (h : n < 2 ^ 64) (rest : List Nat) :
    read_u64 (leBytes 8 n ++ rest) = .ok (n, rest) := by
  have hx : read_bytes 8 (leBytes 8 n ++ rest) = .ok (leBytes 8 n, rest) := by
    have hy := read_bytes_exact (leBytes 8 n) rest
    rwa [leBytes_length] at hy
  rw [read_u64, hx]
  show Except.ok (fromLE (leBytes 8 n), rest) = _
  rw [fromLE_leBytes 8 n h]

theorem read_u32_leBytes (n : Nat) (h : n < 2 ^ 32) (rest : List Nat) :
    read_u32 (leBytes 4 n ++ rest) = .ok (n, rest) := by
  have hx : read_bytes 4 (leBytes 4 n ++ rest) = .ok (leBytes 4 n, rest) := by
    have hy := read_bytes_exact (leBytes 4 n) rest
    rwa [leBytes_length] at hy
  rw [read_u32, hx]
  show Except.ok (fromLE (leBytes 4 n), rest) = _
  rw [fromLE_leBytes 4 n (by norm_num at h ⊢; omega)]

theorem read_u16_leBytes (n : Nat) (h : n < 2 ^ 16) (rest : List Nat) :
    read_u16 (leBytes 2 n ++ rest) = .ok (n, rest) := by
  have hx : read_bytes 2 (leBytes 2 n ++ rest) = .ok (leBytes 2 n, rest) := by
    have hy := read_bytes_exact (leBytes 2 n) rest
    rwa [leBytes_length] at hy
  rw [read_u16, hx]
  show Except.ok (fromLE (leBytes 2 n), rest) = _
  rw [fromLE_leBytes 2 n (by norm_num at h ⊢; omega)]

theorem sizeOf_find : ∀ (vs : VariantList) (i : Nat) (fs : TyList),
    vs.find i = some fs → sizeOf fs < sizeOf vs
  | .nil, i, fs, h => by simp [VariantList.find] at h
  | .cons f rest, 0, fs, h => by
    simp only [VariantList.find, Option.some.injEq] at h
    subst h
    simp
    omega
  | .cons f rest, n + 1, fs, h => by
    have hr := sizeOf_find rest n fs (by simpa [VariantList.find] using h)
    simp
    omega

/-! The type-directed decoder: `from_bytes::<T>` runs `T::deserialize` on a
fresh `Deserializer`, which walks the shape of `T` issuing the primitive
reads above.  `decodeFields` is a struct/tuple/variant field walk,
`decodeElems` a counted sequence (`SeqDeserializer` with `remaining = n`),
`decodePairs` a counted map (`MapDeserializer`). -/

mutual
def decode : Ty → List Nat → Except DeError (Value × List Nat)
  | .tbool, s => do
    let (b, r) ← read_u8 s
    if b = 0 then .ok (.vbool false, r)
    else if b = 1 then .ok (.vbool true, r)
    else .error (.InvalidBool b)
  | .tu8, s => (read_u8 s).map (fun p => (.vu8 p.1, p.2))
  | .tu16, s => (read_u16 s).map (fun p => (.vu16 p.1, p.2))
  | .tu32, s => (read_u32 s).map (fun p => (.vu32 p.1, p.2))
  | .tu64, s => (read_u64 s).map (fun p => (.vu64 p.1, p.2))
  | .ti8, s => (read_u8 s).map (fun p => (.vi8 (bitsToInt 8 p.1), p.2))
  | .ti16, s => (read_u16 s).map (fun p => (.vi16 (bitsToInt 16 p.1), p.2))
  | .ti32, s => (read_u32 s).map (fun p => (.vi32 (bitsToInt 32 p.1), p.2))
  | .ti64, s => (read_u64 s).map (fun p => (.vi64 (bitsToInt 64 p.1), p.2))
  | .tf32, s => (read_u32 s).map (fun p => (.vf32 p.1, p.2))
  | .tf64, s => (read_u64 s).map (fun p => (.vf64 p.1, p.2))
  | .tstr, s => do
    let (len, r) ← read_u64 s
    let (bs, r2) ← read_bytes len r
    match utf8Decode bs with
    | some cs => .ok (.vstr cs, r2)
    | none => .error .Utf8Error
  | .tbytes, s => do
    let (len, r) ← read_u64 s
    let (bs, r2) ← read_bytes len r
    .ok (.vbytes bs, r2)
  | .tunit, s => .ok (.vunit, s)
  | .topt t, s => do
    let (tag, r) ← read_u8 s
    if tag = 0 then .ok (.vnone, r)
    else if tag = 1 then (decode t r).map (fun p => (.vsome p.1, p.2))
    else .error (.Message "invalid option tag")
  | .tstruct ts, s => (decodeFields ts s).map (fun p => (.vstruct p.1, p.2))
  | .tseq t, s => do
    let (n, r) ← read_u64 s
    (decodeElems t n r).map (fun p => (.vseq p.1, p.2))
  | .tenum vs, s => do
    let (i, r) ← read_u32 s
    match hv : vs.find i with
    | some fs => (decodeFields fs r).map (fun p => (.venum i p.1, p.2))
    | none => .error (.Message "invalid variant index")
  | .tmap tk tv, s => do
    let (n, r) ← read_u64 s
    (decodePairs tk tv n r).map (fun p => (.vmap p.1, p.2))
termination_by t s => (2 * sizeOf t, 0)
decreasing_by
  all_goals simp_wf
  all_goals
    first
    | (apply Prod.Lex.right
       omega)
    | (apply Prod.Lex.left
       first
       | omega
       | (have hfs := sizeOf_find _ _ _ hv
          simp at hfs ⊢
          omega)
       | (simp
          omega)
       | simp)
def decodeFields : TyList → List Nat → Except DeError (ValueList × List Nat)
  | .nil, s => .ok (.nil, s)
  | .cons t ts, s => do
    let (v, r) ← decode t s
    let (vs, r2) ← decodeFields ts r
    .ok (.cons v vs, r2)
termination_by ts s => (2 * sizeOf ts, 0)
decreasing_by
  all_goals simp_wf
  all_goals
    first
    | (apply Prod.Lex.right
       omega)
    | (apply Prod.Lex.left
       first
       | omega
       | (have hfs := sizeOf_find _ _ _ hv
          simp at hfs ⊢
          omega)
       | (simp
          omega)
       | simp)
def decodeElems : Ty → Nat → List Nat → Except DeError (ValueList × List Nat)
  | _, 0, s => .ok (.nil, s)
  | t, n + 1, s => do
    let (v, r) ← decode t s
    let (vs, r2) ← decodeElems t n r
    .ok (.cons v vs, r2)
termination_by t n s => (2 * sizeOf t + 1, n)
decreasing_by
  all_goals simp_wf
  all_goals
    first
    | (apply Prod.Lex.right
       omega)
    | (apply Prod.Lex.left
       first
       | omega
       | (have hfs := sizeOf_find _ _ _ hv
          simp at hfs ⊢
          omega)
       | (simp
          omega)
       | simp)
def decodePairs : Ty → Ty → Nat → List Nat → Except DeError (PairList × List Nat)
  | _, _, 0, s => .ok (.nil, s)
  | tk, tv, n + 1, s => do
    let (k, r) ← decode tk s
    let (v, r2) ← decode tv r
    let (rest, r3) ← decodePairs tk tv n r2
    .ok (.cons k v rest, r3)
termination_by tk tv n s => (2 * (sizeOf tk + sizeOf tv) + 1, n)
decreasing_by
  all_goals simp_wf
  all_goals
    first
    | (apply Prod.Lex.right
       omega)
    | (apply Prod.Lex.left
       first
       | omega
       | (have hfs := sizeOf_find _ _ _ hv
          simp at hfs ⊢
          omega)
       | (simp
          omega)
       | simp)
end

/-- `from_bytes` (deserializer.rs): run the type-directed decode on a fresh
`Deserializer` over `bytes` (trailing bytes are not checked). -/
def from_bytes (t : Ty) (bytes : List Nat) : Except DeError Value :=
  (decode t bytes).map Prod.fst

/-! ## Round-trip: decoding the serialized bytes returns the value -/

mutual
theorem decode_ser : ∀ (v : Value) (t : Ty), HasTy v t →
    ∀ rest, decode t (ser v ++ rest) = .ok (v, rest)
  | _, _, .bool b, rest => by
    cases b <;> simp [ser, decode, read_u8, except_bind_ok]
  | _, _, .u8 n h, rest => by
    have h2 : n < 256 := by norm_num at h ⊢; omega
    simp [ser, decode, read_u8, leBytes, Except.map, Nat.mod_eq_of_lt h2]
  | _, _, .u16 n h, rest => by
    rw [ser, decode, read_u16_leBytes n h rest]
    rfl
  | _, _, .u32 n h, rest => by
    rw [ser, decode, read_u32_leBytes n h rest]
    rfl
  | _, _, .u64 n h, rest => by
    rw [ser, decode, read_u64_leBytes n h rest]
    rfl
  | _, _, .i8 v h1 h2, rest => by
    have hlt : intToBits 8 v < 2 ^ 8 := intToBits_lt 8 v
    rw [ser, decode]
    simp only [leBytes, List.cons_append, List.nil_append]
    rw [show read_u8 (intToBits 8 v % 256 :: rest) =
      .ok (intToBits 8 v % 256, rest) from rfl]
    have hmod : intToBits 8 v % 256 = intToBits 8 v :=
      Nat.mod_eq_of_lt (by norm_num at hlt ⊢; omega)
    rw [hmod]
    simp [Except.map, bitsToInt_intToBits 8 (by norm_num) v (by exact_mod_cast h1) (by exact_mod_cast h2)]
  | _, _, .i16 v h1 h2, rest => by
    rw [ser, decode, read_u16_leBytes (intToBits 16 v) (intToBits_lt 16 v) rest]
    simp [Except.map, bitsToInt_intToBits 16 (by norm_num) v (by exact_mod_cast h1) (by exact_mod_cast h2)]
  | _, _, .i32 v h1 h2, rest => by
    rw [ser, decode, read_u32_leBytes (intToBits 32 v) (intToBits_lt 32 v) rest]
    simp [Except.map, bitsToInt_intToBits 32 (by norm_num) v (by exact_mod_cast h1) (by exact_mod_cast h2)]
  | _, _, .i64 v h1 h2, rest => by
    rw [ser, decode, read_u64_leBytes (intToBits 64 v) (intToBits_lt 64 v) rest]
    simp [Except.map, bitsToInt_intToBits 64 (by norm_num) v (by exact_mod_cast h1) (by exact_mod_cast h2)]
  | _, _, .f32 b h, rest => by
    rw [ser, decode, read_u32_leBytes b h rest]
    rfl
  | _, _, .f64 b h, rest => by
    rw [ser, decode, read_u64_leBytes b h rest]
    rfl
  | _, _, .str cs h1 h2, rest => by
    rw [ser, decode]
    simp only [List.append_assoc]
    rw [read_u64_leBytes _ h2 (utf8Encode cs ++ rest), except_bind_ok, read_bytes_exact,
      except_bind_ok, utf8Decode_encode cs h1]
  | _, _, .bytes bs h1 h2, rest => by
    rw [ser, decode]
    simp only [List.append_assoc]
    rw [read_u64_leBytes _ h2 (bs ++ rest), except_bind_ok, read_bytes_exact, except_bind_ok]
  | _, _, .none t, rest => by
    simp [ser, decode, read_u8, except_bind_ok]
  | _, _, .some v t h, rest => by
    rw [ser, decode]
    simp only [List.cons_append]
    rw [show read_u8 (1 :: (ser v ++ rest)) = .ok (1, ser v ++ rest) from rfl, except_bind_ok]
    simp only [if_neg (by norm_num : ¬ ((1 : Nat) = 0)), if_pos rfl]
    rw [decode_ser v t h rest]
    rfl
  | _, _, .unit, rest => by
    simp [ser, decode]
  | _, _, .struct fs ts h, rest => by
    rw [ser, decode, decodeFields_ser fs ts h rest]
    rfl
  | _, _, .seq es t h1 h2, rest => by
    rw [ser, decode]
    simp only [List.append_assoc]
    rw [read_u64_leBytes _ h2 (serFields es ++ rest), except_bind_ok,
      decodeElems_ser es t h1 rest]
    rfl
  | _, _, .enum i p vs fs hi hfind hm, rest => by
    rw [ser, decode]
    simp only [List.append_assoc]
    rw [read_u32_leBytes i hi (serFields p ++ rest), except_bind_ok]
    split
    · rename_i fs2 hfind2
      rw [hfind] at hfind2
      injection hfind2 with he
      subst he
      rw [decodeFields_ser p fs hm rest]
      rfl
    · rename_i hfind2
      rw [hfind] at hfind2
      cases hfind2
  | _, _, .map m tk tv h1 h2, rest => by
    rw [ser, decode]
    simp only [List.append_assoc]
    rw [read_u64_leBytes _ h2 (serPairs m ++ rest), except_bind_ok,
      decodePairs_ser m tk tv h1 rest]
    rfl
theorem decodeFields_ser : ∀ (vs : ValueList) (ts : TyList), HasTyFields vs ts →
    ∀ rest, decodeFields ts (serFields vs ++ rest) = .ok (vs, rest)
  | _, _, .nil, rest => by
    simp [serFields, decodeFields]
  | _, _, .cons v t vs ts h1 h2, rest => by
    rw [serFields, decodeFields]
    simp only [List.append_assoc]
    rw [decode_ser v t h1, except_bind_ok, decodeFields_ser vs ts h2, except_bind_ok]
theorem decodeElems_ser : ∀ (es : ValueList) (t : Ty), HasTyElems es t →
    ∀ rest, decodeElems t es.length (serFields es ++ rest) = .ok (es, rest)
  | _, _, .nil t, rest => by
    simp [serFields, ValueList.length, decodeElems]
  | _, _, .cons v vs t h1 h2, rest => by
    rw [serFields, ValueList.length, decodeElems]
    simp only [List.append_assoc]
    rw [decode_ser v t h1, except_bind_ok, decodeElems_ser vs t h2, except_bind_ok]
theorem decodePairs_ser : ∀ (m : PairList) (tk tv : Ty), HasTyPairs m tk tv →
    ∀ rest, decodePairs tk tv m.length (serPairs m ++ rest) = .ok (m, rest)
  | _, _, _, .nil tk tv, rest => by
    simp [serPairs, PairList.length, decodePairs]
  | _, _, _, .cons k v m tk tv h1 h2 h3, rest => by
    rw [serPairs, PairList.length, decodePairs]
    simp only [List.append_assoc]
    rw [decode_ser k tk h1, except_bind_ok, decode_ser v tv h2, except_bind_ok,
      decodePairs_ser m tk tv h3, except_bind_ok]
end

/-! ## lib.rs: raw length-prefixed helpers (`serialize_bincode` /
`deserialize_bincode` / `deserialize_bincode_unchecked`) and the POD
borrowed view (`deserialize_pod_borrowed`).

`usize` arithmetic in the bounds checks is modelled with the explicit
`% 2 ^ 64` wrap-around of a 64-bit release build (`8 + len` in
`deserialize_bincode`, `len * elem_size` in `deserialize_pod_borrowed`
are unchecked additions/multiplications on `usize`). -/

def deserialize_bincode (data : List Nat) : Except String (List Nat) :=
  if data.length < 8 then .error "Buffer too small"
  else
    let len := fromLE (data.take 8)
    if data.length < (8 + len) % 2 ^ 64 then .error "Buffer too small"
    else .ok ((data.drop 8).take len)

/-- The unchecked variant reads the length prefix and reinterprets the rest
with no bounds check; its caller contract is `8 + declared length ≤
data.length`, under which the returned view is the declared span at offset
8 (outside the contract the Rust function is undefined behaviour). -/
def deserialize_bincode_unchecked (data : List Nat) : List Nat :=
  (data.drop 8).take (fromLE (data.take 8))

/-- `deserialize_pod_borrowed::<T>` for an element size `esize`: read the
`u64` element count, then take `count * esize` bytes (a wrapping `usize`
multiply) and reinterpret them as the typed view; the result is modelled as
the pair (element count of the returned `&[T]`, bytes backing it). -/
def deserialize_pod_borrowed (esize : Nat) (bytes : List Nat) :
    Except DeError (Nat × List Nat) :=
  match read_u64 bytes with
  | .error e => .error e
  | .ok (len, r) =>
    let byte_len := (len * esize) % 2 ^ 64
    match read_bytes byte_len r with
    | .error e => .error e
    | .ok (raw, _) => .ok (len, raw)

/-- C7: on well-formed input (at least 8 bytes, and at least 8 plus the
declared length bytes), the checked and unchecked borrowed decoders agree:
`deserialize_bincode data = Ok (deserialize_bincode_unchecked data)`. -/
theorem checked_unchecked_agree (data : List Nat)
    (h8 : 8 ≤ data.length)
    (hlen : 8 + fromLE (data.take 8) ≤ data.length) :
    deserialize_bincode data = .ok (deserialize_bincode_unchecked data) := by
  rw [deserialize_bincode, deserialize_bincode_unchecked]
  rw [if_neg (by omega)]
  have hm := Nat.mod_le (8 + fromLE (data.take 8)) (2 ^ 64)
  rw [if_neg (by omega)]

/-- Witness for C7 at the concrete input `leBytes 8 2 ++ [9, 7]`
(a buffer declaring 2 payload bytes and containing exactly 2). -/
theorem checked_unchecked_agree_witness :
    deserialize_bincode (leBytes 8 2 ++ [9, 7]) =
      .ok (deserialize_bincode_unchecked (leBytes 8 2 ++ [9, 7])) :=
  checked_unchecked_agree (leBytes 8 2 ++ [9, 7]) (by decide) (by decide)

/-- C6 (code bug): the checked borrowed decoders do not always return an
error when the declared length exceeds the available bytes, because the
bounds computations wrap around `usize`.  `deserialize_bincode` on the
8-byte input `ff ff ff ff ff ff ff ff` (declared length `2^64 - 1`, zero
bytes available) passes its check (`8 + len` wraps to 7) and returns a
view; `deserialize_pod_borrowed::<u64>` on an 8-byte input declaring
`2^61` elements (so `2^61 * 8` wraps to 0) likewise returns `Ok` with a
claimed element count of `2^61` backed by zero bytes. -/
theorem bounds_check_overflow :
    fromLE ((List.replicate 8 255).take 8) = 2 ^ 64 - 1 ∧
    (List.replicate 8 255).length < 8 + (2 ^ 64 - 1) ∧
    deserialize_bincode (List.replicate 8 255) = .ok [] ∧
    fromLE ((leBytes 8 (2 ^ 61)).take 8) = 2 ^ 61 ∧
    (leBytes 8 (2 ^ 61)).length < 8 + 2 ^ 61 * 8 ∧
    deserialize_pod_borrowed 8 (leBytes 8 (2 ^ 61)) = .ok (2 ^ 61, []) := by
  refine ⟨by decide, by decide, ?_, by decide, by decide, ?_⟩
  · rfl
  · rfl

/-! ## Claim theorems for the serde codec -/

/-- A nested example value: a struct holding an option of a multi-byte
string, a newtype enum variant, a byte buffer, a negative `i16`, an `f64`
NaN bit pattern, a `u64` sequence, a bool, and an absent option. -/
def exampleVal : Value :=
  .vstruct (.cons (.vsome (.vstr [72, 66376]))
    (.cons (.venum 1 (.cons (.vu8 42) .nil))
    (.cons (.vbytes [0, 255])
    (.cons (.vi16 (-1))
    (.cons (.vf64 9221120237041090560)
    (.cons (.vseq (.cons (.vu64 7) (.cons (.vu64 8) .nil)))
    (.cons (.vbool true)
    (.cons .vnone
    .nil))))))))

def exampleTy : Ty :=
  .tstruct (.cons (.topt .tstr)
    (.cons (.tenum (.cons .nil (.cons (.cons .tu8 .nil) .nil)))
    (.cons .tbytes
    (.cons .ti16
    (.cons .tf64
    (.cons (.tseq .tu64)
    (.cons .tbool
    (.cons (.topt .tu32)
    .nil))))))))

/-- C1: for every value of a supported shape (fixed-width integers, floats
as IEEE-754 bit patterns, bool, strings including multi-byte characters,
byte buffers, options, nested structs, and enums with
unit/newtype/tuple/struct variants), deserializing the bytes produced by
serializing the value returns exactly the value:
`from_bytes (to_vec v) = Ok v`. -/
theorem round_trip (v : Value) (t : Ty) (h : HasTy v t) :
    to_vec v = .ok (ser v) ∧ from_bytes t (ser v) = .ok v := by
  refine ⟨to_vec_eq v, ?_⟩
  rw [from_bytes]
  have hd := decode_ser v t h []
  rw [List.append_nil] at hd
  rw [hd]
  rfl

/-- Witness for C1 at `exampleVal : exampleTy`. -/
theorem round_trip_witness :
    to_vec exampleVal = .ok (ser exampleVal) ∧
    from_bytes exampleTy (ser exampleVal) = .ok exampleVal :=
  round_trip exampleVal exampleTy
    (by repeat first | decide | rfl | constructor)

/-- C10: serialization is infallible for every supported value shape
(`to_vec` returns `Ok` for every value built from primitives, strings,
bytes, options, unit, structs, tuples, enum variants, and sequences/maps,
whose lengths are always known); the only error paths in the `Serializer`
are a sequence or map presented with an unknown (`None`) length. -/
theorem to_vec_infallible :
    (∀ v : Value, to_vec v = .ok (ser v)) ∧
    (∀ buf, serialize_seq none buf = .error (.Message "sequence length required")) ∧
    (∀ buf, serialize_map none buf = .error (.Message "map length required")) :=
  ⟨to_vec_eq, fun _ => rfl, fun _ => rfl⟩

/-- C8 (amended): `None` encodes as the single byte 0, `Some (42 : u8)` as
the two bytes `[1, 42]`; decoding a bool consumes one byte, yields `false`
for 0 and `true` for 1 and fails with `InvalidBool` otherwise; an option
tag other than 0/1 fails with the generic `Message "invalid option tag"`
error (the deserializer's `Error` enum has no dedicated `InvalidOptionTag`
variant). -/
theorem option_bool_tag_bytes :
    to_vec .vnone = .ok [0] ∧
    to_vec (.vsome (.vu8 42)) = .ok [1, 42] ∧
    (∀ (b : Nat) (rest : List Nat), decode .tbool (b :: rest) =
      if b = 0 then .ok (.vbool false, rest)
      else if b = 1 then .ok (.vbool true, rest)
      else .error (.InvalidBool b)) ∧
    (∀ (t : Ty) (b : Nat) (rest : List Nat), decode (.topt t) (b :: rest) =
      if b = 0 then .ok (.vnone, rest)
      else if b = 1 then (decode t rest).map (fun p => (.vsome p.1, p.2))
      else .error (.Message "invalid option tag")) := by
  refine ⟨rfl, rfl, ?_, ?_⟩
  · intro b rest
    rw [decode]
    rfl
  · intro t b rest
    rw [decode]
    rfl

/-- Counterexample for C8 as stated: an option tag of 2 fails with the
generic `Message "invalid option tag"`, not with a dedicated
`InvalidOptionTag` error value (no such variant exists in the
deserializer's `Error` enum). -/
theorem option_tag_error_is_message :
    decode (.topt .tu8) [2] = .error (.Message "invalid option tag") := by
  rw [decode]
  rfl

/-! ## Adaptive FFI chunking (`Encoder::write_bytes`, `Decoder::read_bytes`
in lib.rs)

Both functions select a chunk size from the payload length with the same
`match` and then either issue one accelerator call (payload fits in a
chunk) or iterate `chunks(..)` / `chunks_mut(..)`; the list of chunks below
is the sequence of byte spans handed to the accelerator, in call order. -/

def chunk_size_for (len : Nat) : Nat :=
  if len ≤ 4096 then len
  else if len ≤ 65536 then 16 * 1024
  else if len ≤ 1048576 then 32 * 1024
  else 48 * 1024

/-- `slice::chunks n`: split into consecutive chunks of `n` elements, the
last possibly shorter (`chunks(0)` panics in Rust and is never reached
here; it is mapped to `[]`). -/
def chunksOf {α : Type} : Nat → List α → List (List α)
  | _, [] => []
  | 0, _ :: _ => []
  | n + 1, x :: xs => ((x :: xs).take (n + 1)) :: chunksOf (n + 1) ((x :: xs).drop (n + 1))
termination_by n l => l.length
decreasing_by simp; omega

theorem chunksOf_mem_length {α : Type} (n : Nat) :
    ∀ (l : List α), ∀ c ∈ chunksOf n l, c.length ≤ n
  | [], c, hc => by simp [chunksOf] at hc
  | x :: xs, c, hc => by
    match n with
    | 0 => simp [chunksOf] at hc
    | m + 1 =>
      rw [chunksOf] at hc
      rcases List.mem_cons.mp hc with h | h
      · subst h
        simp
      · exact chunksOf_mem_length (m + 1) _ c h
termination_by l => l.length
decreasing_by simp; omega

theorem chunksOf_flatten {α : Type} (n : Nat) (hn : 0 < n) :
    ∀ (l : List α), (chunksOf n l).flatten = l
  | [] => by simp [chunksOf]
  | x :: xs => by
    match n, hn with
    | m + 1, _ =>
      rw [chunksOf, List.flatten_cons, chunksOf_flatten (m + 1) (by omega) _,
        List.take_append_drop]
termination_by l => l.length
decreasing_by simp; omega

/-- `Encoder::write_bytes` (lib.rs lines 405-426): the byte spans passed to
`limcode_encoder_write_bytes`, in order. -/
def encoder_write_bytes_calls (data : List Nat) : List (List Nat) :=
  let cs := chunk_size_for data.length
  if data.length ≤ cs then [data] else chunksOf cs data

/-- `Decoder::read_bytes` (lib.rs lines 650-676): the spans of the caller's
`out` buffer passed to `limcode_decoder_read_bytes`, in order (the chunking
`match` is the same as the encoder's). -/
def decoder_read_bytes_calls (out : List Nat) : List (List Nat) :=
  let cs := chunk_size_for out.length
  if out.length ≤ cs then [out] else chunksOf cs out

theorem chunk_size_for_le (len : Nat) (h : len ≤ 4096 ∨ 4097 ≤ len) :
    chunk_size_for len ≤ 49152 := by
  rw [chunk_size_for]
  split_ifs <;> omega

theorem calls_bounded_flatten (data : List Nat) :
    (∀ c ∈ encoder_write_bytes_calls data, c.length ≤ 49152) ∧
    (encoder_write_bytes_calls data).flatten = data := by
  rw [encoder_write_bytes_calls]
  have hcs : chunk_size_for data.length ≤ 49152 := chunk_size_for_le _ (by omega)
  split
  · rename_i hfits
    constructor
    · intro c hc
      simp at hc
      subst hc
      omega
    · simp
  · rename_i hbig
    have hpos : 0 < chunk_size_for data.length := by
      rw [chunk_size_for]
      split_ifs <;> omega
    constructor
    · intro c hc
      have := chunksOf_mem_length (chunk_size_for data.length) data c hc
      omega
    · exact chunksOf_flatten _ hpos data

/-- C5: neither `Encoder::write_bytes` nor `Decoder::read_bytes` ever
passes more than 48KiB (49152 bytes) to a single accelerator call: a
payload of at most 4096 bytes goes in one call, 4097..65536 bytes are
split into 16KiB chunks, 65537..1048576 bytes into 32KiB chunks, larger
payloads into 48KiB chunks, and the chunks concatenated in order equal the
original payload. -/
theorem write_read_chunking_bounded (data out : List Nat) :
    (∀ c ∈ encoder_write_bytes_calls data, c.length ≤ 49152) ∧
    (encoder_write_bytes_calls data).flatten = data ∧
    (∀ c ∈ decoder_read_bytes_calls out, c.length ≤ 49152) ∧
    (decoder_read_bytes_calls out).flatten = out ∧
    (data.length ≤ 4096 → encoder_write_bytes_calls data = [data]) ∧
    (4097 ≤ data.length → data.length ≤ 65536 → chunk_size_for data.length = 16384) ∧
    (65537 ≤ data.length → data.length ≤ 1048576 → chunk_size_for data.length = 32768) ∧
    (1048577 ≤ data.length → chunk_size_for data.length = 49152) := by
  obtain ⟨he1, he2⟩ := calls_bounded_flatten data
  obtain ⟨hd1, hd2⟩ := calls_bounded_flatten out
  refine ⟨he1, he2, hd1, hd2, ?_, ?_, ?_, ?_⟩
  · intro hle
    rw [encoder_write_bytes_calls]
    simp only [chunk_size_for, if_pos hle]
    simp
  · intro h1 h2
    rw [chunk_size_for, if_neg (by omega), if_pos h2]
  · intro h1 h2
    rw [chunk_size_for, if_neg (by omega), if_neg (by omega), if_pos h2]
  · intro h1
    rw [chunk_size_for, if_neg (by omega), if_neg (by omega), if_neg (by omega)]

/-- Witness for C5: a 3-byte payload goes whole in one call, and at a
5000-byte payload the selected chunk size is 16KiB; chunks always
reassemble to the payload. -/
theorem write_read_chunking_bounded_witness :
    encoder_write_bytes_calls [1, 2, 3] = [[1, 2, 3]] ∧
    chunk_size_for (List.replicate 5000 (0 : Nat)).length = 16384 ∧
    (encoder_write_bytes_calls (List.replicate 5000 (0 : Nat))).flatten =
      List.replicate 5000 (0 : Nat) ∧
    (decoder_read_bytes_calls (List.replicate 5000 (0 : Nat))).flatten =
      List.replicate 5000 (0 : Nat) :=
  ⟨(write_read_chunking_bounded [1, 2, 3] []).2.2.2.2.1 (by decide),
   (write_read_chunking_bounded (List.replicate 5000 0) []).2.2.2.2.2.1
     (by rw [List.length_replicate]; norm_num) (by rw [List.length_replicate]; norm_num),
   (write_read_chunking_bounded (List.replicate 5000 0) []).2.1,
   (write_read_chunking_bounded [] (List.replicate 5000 0)).2.2.2.1⟩

/-! ## The adaptive `Encoder` (lib.rs)

`Encoder` owns an optional native accelerator handle (`inner`, created
lazily) and a pure-Rust `fast_buffer`.  The C++ implementation behind the
`limcode_encoder_*` FFI calls is not part of this repository's sources. -/

structure Encoder where
  inner : Option (List Nat)
  fast_buffer : List Nat

/-- `Encoder::new`: no accelerator, empty fast buffer. -/
def Encoder.new : Encoder := ⟨none, []⟩

/-- Modelled from the spec: the native accelerator behind
`limcode_encoder_write_bytes` (the C++ body is absent from `src/`; §6 of
the spec describes the accelerator as an opaque byte sink whose
`write_bytes` appends to its buffer and whose `finish` hands the buffer
back).  `get_or_create_inner` lazily creates the handle, modelled by the
`none` branch starting a fresh buffer. -/
def Encoder.accWrite (e : Encoder) (data : List Nat) : Encoder :=
  match e.inner with
  | none => { e with inner := some data }
  | some acc => { e with inner := some (acc ++ data) }

/-- `Encoder::write_u64`: forwarded to the accelerator (little-endian). -/
def Encoder.write_u64 (e : Encoder) (v : Nat) : Encoder :=
  e.accWrite (leBytes 8 v)

/-- `Encoder::write_bytes`: the adaptively-chunked accelerator calls of
`encoder_write_bytes_calls`, issued in order. -/
def Encoder.write_bytes (e : Encoder) (data : List Nat) : Encoder :=
  (encoder_write_bytes_calls data).foldl Encoder.accWrite e

/-- `Encoder::write_vec_bincode` (lib.rs lines 440-480).  The fast path
(`data.len() <= 4096`) reserves `total_len` more bytes, then writes the
8-byte length prefix and the payload at the *start* of `fast_buffer`
(`ptr`, not `ptr.add(old_len)`) and executes `set_len(total_len)`: the
resulting buffer is exactly the new encoding, any previously accumulated
bytes are overwritten/truncated away.  The SIMD path first flushes a
non-empty fast buffer to the accelerator with one call, then writes the
`u64` length and the chunked payload through the accelerator. -/
def Encoder.write_vec_bincode (e : Encoder) (data : List Nat) : Encoder :=
  if data.length ≤ 4096 then
    { e with fast_buffer := leBytes 8 data.length ++ data }
  else
    let e2 := if e.fast_buffer.isEmpty then e
      else { e.accWrite e.fast_buffer with fast_buffer := [] }
    (e2.write_u64 data.length).write_bytes data

/-- `Encoder::finish` (lib.rs lines 537-570): with no accelerator the fast
buffer is returned directly; otherwise the fast buffer is flushed and the
accelerator's buffer returned. -/
def Encoder.finish (e : Encoder) : List Nat :=
  if e.inner.isNone ∧ ¬ e.fast_buffer.isEmpty then e.fast_buffer
  else
    match e.inner with
    | some acc => acc ++ e.fast_buffer
    | none => e.fast_buffer

/-- C2 (code bug): two fast-path `write_vec_bincode` calls do not
accumulate; the second overwrites the first.  On a fresh encoder,
`write_vec_bincode [1]` then `write_vec_bincode [2]` then `finish` returns
only the second encoding (9 bytes: the 8-byte little-endian length 1 and
the payload byte 2), not the concatenation of both encodings that
append-only accumulation requires. -/
theorem write_vec_bincode_overwrites :
    ((Encoder.new.write_vec_bincode [1]).write_vec_bincode [2]).finish =
      leBytes 8 1 ++ [2] ∧
    leBytes 8 1 ++ [2] ≠ (leBytes 8 1 ++ [1]) ++ (leBytes 8 1 ++ [2]) := by
  exact ⟨rfl, by decide⟩

/-! ## POD / raw-byte serialization (`serialize_bincode` in lib.rs,
`serialize_pod_into` / `serialize_pod` in serializer.rs)

These functions reserve a `total_len`-byte buffer, `write_unaligned` the
8-byte little-endian length prefix at offset 0, prefault the buffer's
pages when the payload exceeds 16MiB (one volatile zero byte per 4096-byte
stride, *after* the prefix was written), copy the payload to offset 8
(`copy_nonoverlapping` at or below 64KiB, `fast_nt_memcpy` above - both
move exactly the payload bytes, so they share one model), and `set_len`.
`junk` stands for the uninitialized contents of the fresh buffer. -/

/-- A pointer-level copy of `data` into `buf` at byte offset `off`. -/
def writeAt (buf : List Nat) (off : Nat) (data : List Nat) : List Nat :=
  buf.take off ++ data ++ buf.drop (off + data.length)

/-- `prefault_pages(ptr, len)`: write a zero byte at offsets
`0, 4096, 8192, ...` below `len`. -/
def prefault_pages (buf : List Nat) (len : Nat) : List Nat :=
  (List.range ((len + 4095) / 4096)).foldl
    (fun b i => if i * 4096 < len then b.set (i * 4096) 0 else b) buf

/-- `serialize_bincode(data)` (lib.rs lines 95-124): length prefix, then
prefault when `data.len() > 16MiB`, then the payload at offset 8. -/
def serialize_bincode (data : List Nat) (junk : List Nat) : List Nat :=
  let total_len := data.length + 8
  let m0 := writeAt junk 0 (leBytes 8 data.length)
  let m1 := if data.length > 16777216 then prefault_pages m0 total_len else m0
  writeAt m1 8 data

/-- The little-endian element bytes of a POD slice, back to back. -/
def podBytes (esize : Nat) (elems : List Nat) : List Nat :=
  (elems.map (leBytes esize)).flatten

/-- `serialize_pod_into` (serializer.rs lines 571-607): same structure over
a typed slice with element byte size `esize`. -/
def serialize_pod_into (esize : Nat) (elems : List Nat) (junk : List Nat) : List Nat :=
  let byte_len := esize * elems.length
  let total_len := 8 + byte_len
  let m0 := writeAt junk 0 (leBytes 8 elems.length)
  let m1 := if byte_len > 16777216 then prefault_pages m0 total_len else m0
  writeAt m1 8 (podBytes esize elems)

/-- `serialize_pod` (serializer.rs lines 623-628): fresh buffer, then
`serialize_pod_into`. -/
def serialize_pod (esize : Nat) (elems : List Nat) (junk : List Nat) : List Nat :=
  serialize_pod_into esize elems junk

theorem writeAt_length (r : List Nat) (off : Nat) (d : List Nat) :
    (writeAt r off d).length = min off r.length + d.length + (r.length - (off + d.length)) := by
  rw [writeAt]
  simp
  omega

theorem getElem0_writeAt (r : List Nat) (off : Nat) (d : List Nat)
    (hoff : 1 ≤ off) (hr : 0 < r.length) : (writeAt r off d)[0]? = r[0]? := by
  rw [writeAt, List.getElem?_append, if_pos (by simp; omega), List.getElem?_append,
    if_pos (by simp; omega), List.getElem?_take, if_pos (by omega)]

theorem getElem0_pos_of_some (b : List Nat) (v : Nat) (hb : b[0]? = some v) :
    0 < b.length := by
  by_contra hc
  rw [List.getElem?_eq_none (by omega)] at hb
  cases hb

theorem foldl_set_getElem0 (len : Nat) : ∀ (L : List Nat) (b : List Nat),
    b[0]? = some 0 →
    (L.foldl (fun b i => if i * 4096 < len then b.set (i * 4096) 0 else b) b)[0]? = some 0
  | [], b, hb => hb
  | i :: L, b, hb => by
    rw [List.foldl_cons]
    apply foldl_set_getElem0 len L
    have hblen : 0 < b.length := getElem0_pos_of_some b 0 hb
    by_cases hcond : i * 4096 < len
    · rw [if_pos hcond]
      rcases Nat.eq_zero_or_pos (i * 4096) with h0 | hpos
      · rw [h0]
        exact List.getElem?_set_eq (by omega)
      · rw [List.getElem?_set_ne (by omega)]
        exact hb
    · rw [if_neg hcond]
      exact hb

theorem prefault_getElem0 (buf : List Nat) (len : Nat) (h0 : 0 < len)
    (hb : 0 < buf.length) : (prefault_pages buf len)[0]? = some 0 := by
  rw [prefault_pages]
  obtain ⟨k, hk⟩ : ∃ k, (len + 4095) / 4096 = k + 1 := by
    refine ⟨(len + 4095) / 4096 - 1, ?_⟩
    have h1 : 1 ≤ (len + 4095) / 4096 := by
      rw [Nat.le_div_iff_mul_le (by norm_num)]
      omega
    omega
  rw [hk, List.range_succ_eq_map, List.foldl_cons]
  apply foldl_set_getElem0
  simp only [Nat.zero_mul, if_pos h0]
  exact List.getElem?_set_eq (by omega)

theorem foldl_set_length (len : Nat) : ∀ (L : List Nat) (b : List Nat),
    (L.foldl (fun b i => if i * 4096 < len then b.set (i * 4096) 0 else b) b).length
      = b.length
  | [], b => rfl
  | i :: L, b => by
    rw [List.foldl_cons, foldl_set_length len L]
    split <;> simp

theorem prefault_length (buf : List Nat) (len : Nat) :
    (prefault_pages buf len).length = buf.length := by
  rw [prefault_pages]
  exact foldl_set_length len _ buf

theorem podBytes_length (esize : Nat) : ∀ (elems : List Nat),
    (podBytes esize elems).length = esize * elems.length
  | [] => by simp [podBytes]
  | e :: es => by
    have ih := podBytes_length esize es
    simp only [podBytes, List.map_cons, List.flatten_cons, List.length_append,
      leBytes_length, List.length_cons]
    rw [show ((es.map (leBytes esize)).flatten).length = (podBytes esize es).length from rfl,
      ih]
    ring

/-- Below the prefault threshold, `serialize_pod_into` produces exactly the
8-byte count followed by the element bytes. -/
theorem serialize_pod_into_no_prefault (esize : Nat) (elems junk : List Nat)
    (hsize : esize * elems.length ≤ 16777216)
    (hjunk : junk.length = 8 + esize * elems.length) :
    serialize_pod_into esize elems junk
      = leBytes 8 elems.length ++ podBytes esize elems := by
  have hpod := podBytes_length esize elems
  simp only [serialize_pod_into]
  rw [if_neg (by omega)]
  have hm0 : writeAt junk 0 (leBytes 8 elems.length)
      = leBytes 8 elems.length ++ junk.drop 8 := by
    rw [writeAt, leBytes_length]
    simp
  rw [hm0, writeAt]
  rw [List.take_left' (by rw [leBytes_length])]
  rw [List.drop_eq_nil_of_le (by simp [leBytes_length]; omega)]
  simp

/-- C4 (code bug): the size tiers of `serialize_bincode`/`serialize_pod`
are not byte-identical.  Below the 16MiB prefault threshold the output is
exactly the 8-byte little-endian count followed by the little-endian
element bytes (the spec's 1000-element `Vec<u64>` and empty-buffer
scenarios hold), but above it `prefault_pages` runs *after* the length
prefix was written and zeroes offset 0, clobbering the prefix's low byte:
`serialize_bincode` on a 16777217-byte payload emits first byte 0 where
the little-endian encoding of 16777217 requires 1. -/
theorem prefault_clobbers_length_prefix :
    (serialize_bincode (List.replicate 16777217 0) (List.replicate 16777225 0))[0]?
      = some 0 ∧
    (leBytes 8 16777217)[0]? = some 1 ∧
    serialize_bincode [] (List.replicate 8 37) = List.replicate 8 0 ∧
    serialize_pod_into 8 (List.range 1000) (List.replicate 8008 7) =
      leBytes 8 1000 ++ podBytes 8 (List.range 1000) ∧
    (serialize_pod_into 8 (List.range 1000) (List.replicate 8008 7)).length = 8008 ∧
    (serialize_pod_into 8 (List.range 1000) (List.replicate 8008 7)).take 8 =
      [232, 3, 0, 0, 0, 0, 0, 0] := by
  have hdata : (List.replicate 16777217 (0 : Nat)).length = 16777217 :=
    List.length_replicate 16777217 0
  have hjunk : (List.replicate 16777225 (0 : Nat)).length = 16777225 :=
    List.length_replicate 16777225 0
  have hscn : serialize_pod_into 8 (List.range 1000) (List.replicate 8008 7) =
      leBytes 8 1000 ++ podBytes 8 (List.range 1000) := by
    have := serialize_pod_into_no_prefault 8 (List.range 1000) (List.replicate 8008 7)
      (by rw [List.length_range]; norm_num)
      (by rw [List.length_replicate, List.length_range])
    rwa [List.length_range] at this
  have hempty : serialize_bincode [] (List.replicate 8 37) = List.replicate 8 0 := by
    rw [serialize_bincode]
    norm_num
    rw [writeAt, writeAt]
    decide
  refine ⟨?_, by decide, hempty, hscn, ?_, ?_⟩
  rotate_left
  · rw [hscn]
    simp [leBytes_length, podBytes_length, List.length_range]
  · rw [hscn, List.take_left' (by rw [leBytes_length])]
    decide
  simp only [serialize_bincode, hdata, hjunk]
  rw [if_pos (by norm_num)]
  have hm0len : (writeAt (List.replicate 16777225 0) 0 (leBytes 8 16777217)).length
      = 16777225 := by
    rw [writeAt_length, leBytes_length, hjunk]
    norm_num
  rw [getElem0_writeAt _ 8 _ (by norm_num)
    (by rw [prefault_length, hm0len]; norm_num)]
  exact prefault_getElem0 _ _ (by norm_num) (by rw [hm0len]; norm_num)

/-! ## Parallel chunked serialization (`serialize_vec_parallel`,
`serialize_pod_parallel` in serializer.rs)

`serialize_vec_parallel` falls back to `serialize` below 1,000,000
elements; above, it serializes 100,000-element chunks independently
(rayon's ordered `par_chunks(..).map(..).collect::<Result<Vec<_>, _>>()`)
and concatenates the chunk buffers after one 8-byte total-count prefix, in
chunk order.  `serialize_pod_parallel` pre-allocates a zeroed output
buffer, writes the count prefix, and copies each chunk's bytes into its
disjoint range (crossbeam scope joins all workers; each write target is
disjoint, so the result is the deterministic tiling modelled by the
fold). -/

def toVL : List Value → ValueList
  | [] => .nil
  | v :: vs => .cons v (toVL vs)

/-- The ordered collect of the per-chunk serializations (each chunk gets a
fresh `Serializer` and its elements are serialized in order). -/
def collect_chunk_buffers : List (List Value) → Except SerError (List (List Nat))
  | [] => .ok []
  | c :: cs => do
    let buf ← serMFields (toVL c) []
    let bufs ← collect_chunk_buffers cs
    .ok (buf :: bufs)

/-- `serialize(vec)` = `to_vec(vec)`: a `Vec<T>` serializes through
`serialize_seq(Some(len))` and its elements. -/
def serialize_vec (elems : List Value) : Except SerError (List Nat) :=
  to_vec (.vseq (toVL elems))

def serialize_vec_parallel (elems : List Value) : Except SerError (List Nat) :=
  if elems.length < 1000000 then serialize_vec elems
  else
    match collect_chunk_buffers (chunksOf 100000 elems) with
    | .error e => .error e
    | .ok chunk_buffers => .ok (leBytes 8 elems.length ++ chunk_buffers.flatten)

def serialize_pod_parallel (esize : Nat) (elems : List Nat) (junk : List Nat) : List Nat :=
  if elems.length < 1000000 then serialize_pod esize elems junk
  else
    let total_bytes := esize * elems.length
    let result0 := writeAt (List.replicate (8 + total_bytes) 0) 0 (leBytes 8 elems.length)
    (List.range ((elems.length + 99999) / 100000)).foldl
      (fun r ci =>
        writeAt r (8 + ci * 100000 * esize)
          (podBytes esize ((elems.drop (ci * 100000)).take 100000)))
      result0

theorem toVL_length : ∀ (l : List Value), (toVL l).length = l.length
  | [] => rfl
  | v :: vs => by
    rw [toVL, ValueList.length, toVL_length vs, List.length_cons]

theorem serFields_toVL_append : ∀ (a b : List Value),
    serFields (toVL (a ++ b)) = serFields (toVL a) ++ serFields (toVL b)
  | [], b => by simp [toVL, serFields]
  | v :: vs, b => by
    rw [List.cons_append, toVL, toVL, serFields, serFields,
      serFields_toVL_append vs b, List.append_assoc]

theorem collect_chunk_buffers_ok : ∀ (cs : List (List Value)),
    collect_chunk_buffers cs = .ok (cs.map (fun c => serFields (toVL c)))
  | [] => rfl
  | c :: cs => by
    rw [collect_chunk_buffers, serMFields_eq (toVL c) []]
    show (do
      let bufs ← collect_chunk_buffers cs
      Except.ok (([] ++ serFields (toVL c)) :: bufs)) = _
    rw [collect_chunk_buffers_ok cs]
    rfl

theorem flatten_chunk_ser (n : Nat) (hn : 0 < n) : ∀ (l : List Value),
    ((chunksOf n l).map (fun c => serFields (toVL c))).flatten = serFields (toVL l)
  | [] => by simp [chunksOf, toVL, serFields]
  | x :: xs => by
    match n, hn with
    | m + 1, _ =>
      rw [chunksOf, List.map_cons, List.flatten_cons,
        flatten_chunk_ser (m + 1) (by omega) _, ← serFields_toVL_append,
        List.take_append_drop]
termination_by l => l.length
decreasing_by simp; omega

theorem serialize_vec_parallel_eq (elems : List Value) :
    serialize_vec_parallel elems = serialize_vec elems := by
  rw [serialize_vec_parallel]
  split
  · rfl
  · rw [collect_chunk_buffers_ok]
    show Except.ok (leBytes 8 elems.length ++
      ((chunksOf 100000 elems).map (fun c => serFields (toVL c))).flatten)
        = serialize_vec elems
    rw [flatten_chunk_ser 100000 (by norm_num)]
    rw [serialize_vec, to_vec_eq, ser, toVL_length]

theorem foldl_writeAt_getElem0 {f : List Nat → Nat → List Nat}
    (hf : ∀ r i, 0 < r.length → (f r i)[0]? = r[0]? ∧ 0 < (f r i).length) :
    ∀ (L : List Nat) (r : List Nat), 0 < r.length → (L.foldl f r)[0]? = r[0]?
  | [], r, hr => rfl
  | i :: L, r, hr => by
    rw [List.foldl_cons, foldl_writeAt_getElem0 hf L (f r i) (hf r i hr).2,
      (hf r i hr).1]

theorem serialize_pod_parallel_getElem0_big (esize : Nat) (elems junk : List Nat)
    (hbig : ¬ elems.length < 1000000) :
    (serialize_pod_parallel esize elems junk)[0]? = (leBytes 8 elems.length)[0]? := by
  rw [serialize_pod_parallel, if_neg hbig]
  have h0 : (writeAt (List.replicate (8 + esize * elems.length) 0) 0
      (leBytes 8 elems.length))[0]? = (leBytes 8 elems.length)[0]? := by
    rw [writeAt]
    simp only [List.take_zero, List.nil_append]
    rw [List.getElem?_append, if_pos (by rw [leBytes_length]; norm_num)]
  have hlen0 : 0 < (writeAt (List.replicate (8 + esize * elems.length) 0) 0
      (leBytes 8 elems.length)).length := by
    rw [writeAt_length, leBytes_length, List.length_replicate]
    omega
  rw [foldl_writeAt_getElem0 ?hf _ _ hlen0]
  · exact h0
  · intro r i hr
    constructor
    · exact getElem0_writeAt r _ _ (by omega) hr
    · rw [writeAt_length]
      omega

/-- C3 (code bug): `serialize_vec_parallel` is byte-identical to the
sequential `serialize` for every element count (both branches proved), but
`serialize_pod_parallel` is not byte-identical to `serialize_pod` at or
above the 1,000,000-element threshold whenever the payload exceeds the
16MiB prefault threshold: the sequential path's `prefault_pages` zeroes
the first byte of the length prefix (the C4 bug) while the parallel path
writes the prefix intact.  At 3,000,000 `u64` elements the parallel output
starts with byte 192 (3,000,000 mod 256) and the sequential output with
byte 0. -/
theorem parallel_matches_sequential :
    (∀ elems : List Value, serialize_vec_parallel elems = serialize_vec elems) ∧
    (serialize_pod_parallel 8 (List.replicate 3000000 0) (List.replicate 24000008 0))[0]?
      = some 192 ∧
    (serialize_pod 8 (List.replicate 3000000 0) (List.replicate 24000008 0))[0]?
      = some 0 ∧
    some (192 : Nat) ≠ some 0 := by
  have hdata : (List.replicate 3000000 (0 : Nat)).length = 3000000 :=
    List.length_replicate 3000000 0
  have hjunk : (List.replicate 24000008 (0 : Nat)).length = 24000008 :=
    List.length_replicate 24000008 0
  refine ⟨serialize_vec_parallel_eq, ?_, ?_, by decide⟩
  · rw [serialize_pod_parallel_getElem0_big 8 _ _ (by rw [hdata]; norm_num), hdata]
    decide
  · rw [serialize_pod, serialize_pod_into]
    simp only [hdata, hjunk]
    rw [if_pos (by norm_num)]
    have hm0len : (writeAt (List.replicate 24000008 0) 0 (leBytes 8 3000000)).length
        = 24000008 := by
      rw [writeAt_length, leBytes_length, hjunk]
      norm_num
    rw [getElem0_writeAt _ 8 _ (by norm_num)
      (by rw [prefault_length, hm0len]; norm_num)]
    exact prefault_getElem0 _ _ (by norm_num) (by rw [hm0len]; norm_num)

/-! ## The `Deserializer` position state (deserializer.rs lines 46-126)

The struct itself: `input: &[u8]`, `pos: usize`.  `read_u8` (lines 57-64)
compares `pos` against the input length before advancing by one.
`read_bytes` (lines 67-74) guards with `self.pos + len > self.input.len()`
- a `usize` addition.  When `pos + len` overflows `usize` the operation
does not return at all: a debug build panics at the addition, and a
release build wraps the sum, so the guard compares `(pos + len) mod 2^64`
against the length; if that wrapped value exceeds the length the guard
still returns `Eof`, but if it passes, the slice expression
`&self.input[pos..pos + len]` (line 71) has a wrapped end below its start
(the wrapped end is `pos + len - 2^64 < pos` because `len < 2^64`) and
panics.  An outcome of one `&mut self` read is therefore a value with the
updated state, an error with the updated state, or a panic. -/

structure Deserializer where
  input : List Nat
  pos : Nat

/-- The outcome of one `&mut self` primitive read: `Ok` or `Err` together
with the resulting state, or a Rust panic (the operation aborts and no
state results). -/
inductive ReadResult (α : Type) where
  | ok (v : α) (d : Deserializer)
  | error (e : DeError) (d : Deserializer)
  | panic

def Deserializer.new (input : List Nat) : Deserializer := ⟨input, 0⟩

def Deserializer.read_u8 (d : Deserializer) : ReadResult Nat :=
  if d.pos ≥ d.input.length then .error .Eof d
  else .ok (d.input.getD d.pos 0) { d with pos := d.pos + 1 }

/-- deserializer.rs lines 67-74, release semantics of the `usize` sum: the
guard compares `(pos + len) mod 2^64` with the input length; when the true
sum fits in `usize` the code behaves as written, and when it overflows but
the wrapped guard passes, `input[pos..(pos + len) mod 2^64]` has start
above end and panics (a debug build panics one line earlier, at the
addition itself, on the same inputs and also on the wrapped-`Eof` ones). -/
def Deserializer.read_bytes (d : Deserializer) (len : Nat) : ReadResult (List Nat) :=
  if (d.pos + len) % 2 ^ 64 > d.input.length then .error .Eof d
  else if d.pos + len < 2 ^ 64 then
    .ok ((d.input.drop d.pos).take len) { d with pos := d.pos + len }
  else .panic

def Deserializer.read_u16 (d : Deserializer) : ReadResult Nat :=
  match d.read_bytes 2 with
  | .ok bs d2 => .ok (fromLE bs) d2
  | .error e d2 => .error e d2
  | .panic => .panic

def Deserializer.read_u32 (d : Deserializer) : ReadResult Nat :=
  match d.read_bytes 4 with
  | .ok bs d2 => .ok (fromLE bs) d2
  | .error e d2 => .error e d2
  | .panic => .panic

def Deserializer.read_u64 (d : Deserializer) : ReadResult Nat :=
  match d.read_bytes 8 with
  | .ok bs d2 => .ok (fromLE bs) d2
  | .error e d2 => .error e d2
  | .panic => .panic

def Deserializer.read_i8 (d : Deserializer) : ReadResult Int :=
  match d.read_u8 with
  | .ok v d2 => .ok (bitsToInt 8 v) d2
  | .error e d2 => .error e d2
  | .panic => .panic

def Deserializer.read_i16 (d : Deserializer) : ReadResult Int :=
  match d.read_u16 with
  | .ok v d2 => .ok (bitsToInt 16 v) d2
  | .error e d2 => .error e d2
  | .panic => .panic

def Deserializer.read_i32 (d : Deserializer) : ReadResult Int :=
  match d.read_u32 with
  | .ok v d2 => .ok (bitsToInt 32 v) d2
  | .error e d2 => .error e d2
  | .panic => .panic

def Deserializer.read_i64 (d : Deserializer) : ReadResult Int :=
  match d.read_u64 with
  | .ok v d2 => .ok (bitsToInt 64 v) d2
  | .error e d2 => .error e d2
  | .panic => .panic

def Deserializer.read_f32 (d : Deserializer) : ReadResult Nat :=
  d.read_u32

def Deserializer.read_f64 (d : Deserializer) : ReadResult Nat :=
  d.read_u64

/-- An op "steps by k": it either succeeds with `pos` advanced by exactly
`k` (the input untouched), or fails with `Eof` leaving the state
unchanged.  A panic satisfies neither arm. -/
def StepsBy {α : Type} (d : Deserializer) (out : ReadResult α) (k : Nat) : Prop :=
  (∃ v, out = ReadResult.ok v { d with pos := d.pos + k }) ∨
    out = ReadResult.error DeError.Eof d

/-- In any outcome that produces a state, the position has not moved
backward (a panic produces no state). -/
def NoRewind {α : Type} (d : Deserializer) : ReadResult α → Prop
  | .ok _ d2 => d.pos ≤ d2.pos
  | .error _ d2 => d.pos ≤ d2.pos
  | .panic => True

theorem read_u8_stepsBy (d : Deserializer) : StepsBy d d.read_u8 1 := by
  rw [StepsBy, Deserializer.read_u8]
  split
  · right
    rfl
  · left
    exact ⟨_, rfl⟩

theorem read_bytes_stepsBy (d : Deserializer) (len : Nat)
    (h : d.pos + len < 2 ^ 64) : StepsBy d (d.read_bytes len) len := by
  rw [StepsBy, Deserializer.read_bytes, Nat.mod_eq_of_lt h]
  split
  · right
    rfl
  · left
    exact ⟨_, rfl⟩

theorem stepsBy_ok_cast {α β : Type} (d : Deserializer) (k : Nat) (v : α)
    (d2 : Deserializer) (cast : α → β)
    (h : StepsBy d (ReadResult.ok v d2) k) :
    StepsBy d (ReadResult.ok (cast v) d2) k := by
  rcases h with ⟨w, hw⟩ | hw
  · left
    injection hw with h1 h2
    exact ⟨cast v, by rw [h2]⟩
  · exact ReadResult.noConfusion hw

theorem stepsBy_err_cast {α β : Type} (d : Deserializer) (k : Nat) (e : DeError)
    (d2 : Deserializer)
    (h : StepsBy d (ReadResult.error e d2 : ReadResult α) k) :
    StepsBy d (ReadResult.error e d2 : ReadResult β) k := by
  rcases h with ⟨w, hw⟩ | hw
  · exact ReadResult.noConfusion hw
  · right
    injection hw with h1 h2
    rw [h1, h2]

theorem stepsBy_no_panic {α : Type} (d : Deserializer) (k : Nat)
    (h : StepsBy d (ReadResult.panic : ReadResult α) k) : False := by
  rcases h with ⟨w, hw⟩ | hw
  · exact ReadResult.noConfusion hw
  · exact ReadResult.noConfusion hw

theorem read_u16_stepsBy (d : Deserializer) (h : d.pos + 2 < 2 ^ 64) :
    StepsBy d d.read_u16 2 := by
  have hb := read_bytes_stepsBy d 2 h
  simp only [Deserializer.read_u16]
  cases hd : d.read_bytes 2 with
  | ok bs d2 =>
    rw [hd] at hb
    exact stepsBy_ok_cast d 2 bs d2 fromLE hb
  | error e d2 =>
    rw [hd] at hb
    exact stepsBy_err_cast d 2 e d2 hb
  | panic =>
    rw [hd] at hb
    exact (stepsBy_no_panic d 2 hb).elim

theorem read_u32_stepsBy (d : Deserializer) (h : d.pos + 4 < 2 ^ 64) :
    StepsBy d d.read_u32 4 := by
  have hb := read_bytes_stepsBy d 4 h
  simp only [Deserializer.read_u32]
  cases hd : d.read_bytes 4 with
  | ok bs d2 =>
    rw [hd] at hb
    exact stepsBy_ok_cast d 4 bs d2 fromLE hb
  | error e d2 =>
    rw [hd] at hb
    exact stepsBy_err_cast d 4 e d2 hb
  | panic =>
    rw [hd] at hb
    exact (stepsBy_no_panic d 4 hb).elim

theorem read_u64_stepsBy (d : Deserializer) (h : d.pos + 8 < 2 ^ 64) :
    StepsBy d d.read_u64 8 := by
  have hb := read_bytes_stepsBy d 8 h
  simp only [Deserializer.read_u64]
  cases hd : d.read_bytes 8 with
  | ok bs d2 =>
    rw [hd] at hb
    exact stepsBy_ok_cast d 8 bs d2 fromLE hb
  | error e d2 =>
    rw [hd] at hb
    exact stepsBy_err_cast d 8 e d2 hb
  | panic =>
    rw [hd] at hb
    exact (stepsBy_no_panic d 8 hb).elim

theorem read_i8_stepsBy (d : Deserializer) : StepsBy d d.read_i8 1 := by
  have hb := read_u8_stepsBy d
  simp only [Deserializer.read_i8]
  cases hd : d.read_u8 with
  | ok v d2 =>
    rw [hd] at hb
    exact stepsBy_ok_cast d 1 v d2 (bitsToInt 8) hb
  | error e d2 =>
    rw [hd] at hb
    exact stepsBy_err_cast d 1 e d2 hb
  | panic =>
    rw [hd] at hb
    exact (stepsBy_no_panic d 1 hb).elim

theorem read_i16_stepsBy (d : Deserializer) (h : d.pos + 2 < 2 ^ 64) :
    StepsBy d d.read_i16 2 := by
  have hb := read_u16_stepsBy d h
  simp only [Deserializer.read_i16]
  cases hd : d.read_u16 with
  | ok v d2 =>
    rw [hd] at hb
    exact stepsBy_ok_cast d 2 v d2 (bitsToInt 16) hb
  | error e d2 =>
    rw [hd] at hb
    exact stepsBy_err_cast d 2 e d2 hb
  | panic =>
    rw [hd] at hb
    exact (stepsBy_no_panic d 2 hb).elim

theorem read_i32_stepsBy (d : Deserializer) (h : d.pos + 4 < 2 ^ 64) :
    StepsBy d d.read_i32 4 := by
  have hb := read_u32_stepsBy d h
  simp only [Deserializer.read_i32]
  cases hd : d.read_u32 with
  | ok v d2 =>
    rw [hd] at hb
    exact stepsBy_ok_cast d 4 v d2 (bitsToInt 32) hb
  | error e d2 =>
    rw [hd] at hb
    exact stepsBy_err_cast d 4 e d2 hb
  | panic =>
    rw [hd] at hb
    exact (stepsBy_no_panic d 4 hb).elim

theorem read_i64_stepsBy (d : Deserializer) (h : d.pos + 8 < 2 ^ 64) :
    StepsBy d d.read_i64 8 := by
  have hb := read_u64_stepsBy d h
  simp only [Deserializer.read_i64]
  cases hd : d.read_u64 with
  | ok v d2 =>
    rw [hd] at hb
    exact stepsBy_ok_cast d 8 v d2 (bitsToInt 64) hb
  | error e d2 =>
    rw [hd] at hb
    exact stepsBy_err_cast d 8 e d2 hb
  | panic =>
    rw [hd] at hb
    exact (stepsBy_no_panic d 8 hb).elim

theorem noRewind_read_u8 (d : Deserializer) : NoRewind d d.read_u8 := by
  rw [Deserializer.read_u8]
  split
  · exact Nat.le_refl _
  · exact Nat.le_succ _

theorem noRewind_read_bytes (d : Deserializer) (len : Nat) :
    NoRewind d (d.read_bytes len) := by
  rw [Deserializer.read_bytes]
  split
  · exact Nat.le_refl _
  · split
    · exact Nat.le_add_right _ _
    · trivial

theorem noRewind_read_u16 (d : Deserializer) : NoRewind d d.read_u16 := by
  have hb := noRewind_read_bytes d 2
  simp only [Deserializer.read_u16]
  cases hd : d.read_bytes 2 with
  | ok bs d2 =>
    rw [hd] at hb
    exact hb
  | error e d2 =>
    rw [hd] at hb
    exact hb
  | panic => trivial

theorem noRewind_read_u32 (d : Deserializer) : NoRewind d d.read_u32 := by
  have hb := noRewind_read_bytes d 4
  simp only [Deserializer.read_u32]
  cases hd : d.read_bytes 4 with
  | ok bs d2 =>
    rw [hd] at hb
    exact hb
  | error e d2 =>
    rw [hd] at hb
    exact hb
  | panic => trivial

theorem noRewind_read_u64 (d : Deserializer) : NoRewind d d.read_u64 := by
  have hb := noRewind_read_bytes d 8
  simp only [Deserializer.read_u64]
  cases hd : d.read_bytes 8 with
  | ok bs d2 =>
    rw [hd] at hb
    exact hb
  | error e d2 =>
    rw [hd] at hb
    exact hb
  | panic => trivial

theorem noRewind_read_i8 (d : Deserializer) : NoRewind d d.read_i8 := by
  have hb := noRewind_read_u8 d
  simp only [Deserializer.read_i8]
  cases hd : d.read_u8 with
  | ok v d2 =>
    rw [hd] at hb
    exact hb
  | error e d2 =>
    rw [hd] at hb
    exact hb
  | panic => trivial

theorem noRewind_read_i16 (d : Deserializer) : NoRewind d d.read_i16 := by
  have hb := noRewind_read_u16 d
  simp only [Deserializer.read_i16]
  cases hd : d.read_u16 with
  | ok v d2 =>
    rw [hd] at hb
    exact hb
  | error e d2 =>
    rw [hd] at hb
    exact hb
  | panic => trivial

theorem noRewind_read_i32 (d : Deserializer) : NoRewind d d.read_i32 := by
  have hb := noRewind_read_u32 d
  simp only [Deserializer.read_i32]
  cases hd : d.read_u32 with
  | ok v d2 =>
    rw [hd] at hb
    exact hb
  | error e d2 =>
    rw [hd] at hb
    exact hb
  | panic => trivial

theorem noRewind_read_i64 (d : Deserializer) : NoRewind d d.read_i64 := by
  have hb := noRewind_read_u64 d
  simp only [Deserializer.read_i64]
  cases hd : d.read_u64 with
  | ok v d2 =>
    rw [hd] at hb
    exact hb
  | error e d2 =>
    rw [hd] at hb
    exact hb
  | panic => trivial

theorem noRewind_read_f32 (d : Deserializer) : NoRewind d d.read_f32 :=
  noRewind_read_u32 d

theorem noRewind_read_f64 (d : Deserializer) : NoRewind d d.read_f64 :=
  noRewind_read_u64 d

/-- Whenever the `usize` sum `pos + len` does not overflow, every primitive
read either succeeds advancing `pos` by exactly the bytes consumed or
fails with `Eof` leaving the state unchanged; `read_u8` and `read_i8`
unconditionally (their guard precedes the one-byte advance). -/
theorem stepsBy_all_reads (d : Deserializer) (len : Nat) :
    StepsBy d d.read_u8 1 ∧ StepsBy d d.read_i8 1 ∧
    (d.pos + len < 2 ^ 64 → StepsBy d (d.read_bytes len) len) ∧
    (d.pos + 2 < 2 ^ 64 → StepsBy d d.read_u16 2 ∧ StepsBy d d.read_i16 2) ∧
    (d.pos + 4 < 2 ^ 64 →
      StepsBy d d.read_u32 4 ∧ StepsBy d d.read_i32 4 ∧ StepsBy d d.read_f32 4) ∧
    (d.pos + 8 < 2 ^ 64 →
      StepsBy d d.read_u64 8 ∧ StepsBy d d.read_i64 8 ∧ StepsBy d d.read_f64 8) :=
  ⟨read_u8_stepsBy d, read_i8_stepsBy d,
    fun h => read_bytes_stepsBy d len h,
    fun h => ⟨read_u16_stepsBy d h, read_i16_stepsBy d h⟩,
    fun h => ⟨read_u32_stepsBy d h, read_i32_stepsBy d h, read_u32_stepsBy d h⟩,
    fun h => ⟨read_u64_stepsBy d h, read_i64_stepsBy d h, read_u64_stepsBy d h⟩⟩

/-- C9 (code bug, deserializer.rs line 68): the claimed dichotomy - every
primitive read either succeeds advancing `pos` by the bytes consumed or
fails with `Eof` leaving `pos` unchanged - is violated on wire-reachable
input.  `deserialize_bytes` (lines 219-223) reads a `u64` length prefix
and calls `read_bytes(len)`: on the 8-byte input `ff ff ff ff ff ff ff ff`
the prefix read succeeds (`pos = 8`, `len = 2^64 - 1`), and the following
`read_bytes` computes the `usize` sum `8 + (2^64 - 1)`, which wraps to
`7`: the guard `7 > 8` passes and the slice `input[8..7]` panics (a debug
build already panics at the addition).  That read neither succeeds nor
returns `Eof`.  The no-backward-movement half of the claim does hold: in
every outcome of every read that produces a state, `pos` has not
decreased. -/
theorem read_bytes_wrap_panics :
    (Deserializer.new (List.replicate 8 255)).read_u64
      = ReadResult.ok (2 ^ 64 - 1) (Deserializer.mk (List.replicate 8 255) 8) ∧
    (8 + (2 ^ 64 - 1)) % 2 ^ 64 = 7 ∧
    (Deserializer.mk (List.replicate 8 255) 8).read_bytes (2 ^ 64 - 1)
      = ReadResult.panic ∧
    (∀ (d : Deserializer) (len : Nat),
      NoRewind d d.read_u8 ∧ NoRewind d (d.read_bytes len) ∧
      NoRewind d d.read_u16 ∧ NoRewind d d.read_u32 ∧ NoRewind d d.read_u64 ∧
      NoRewind d d.read_i8 ∧ NoRewind d d.read_i16 ∧
      NoRewind d d.read_i32 ∧ NoRewind d d.read_i64 ∧
      NoRewind d d.read_f32 ∧ NoRewind d d.read_f64) := by
  refine ⟨rfl, by norm_num, rfl, ?_⟩
  intro d len
  exact ⟨noRewind_read_u8 d, noRewind_read_bytes d len,
    noRewind_read_u16 d, noRewind_read_u32 d, noRewind_read_u64 d,
    noRewind_read_i8 d, noRewind_read_i16 d, noRewind_read_i32 d,
    noRewind_read_i64 d, noRewind_read_f32 d, noRewind_read_f64 d⟩

end Limcode
